import Mathlib

/-!
Verification of `train.py`: the Gutenberg-poetry training script.

We shallowly embed the pure computations of the script:
* `GutenbergPoetryDataset.__init__`: tokenization glue, next-token label
  construction (`data[1:] + [0]`), chunking into `seq_len`-sized windows
  (`range(0, len, seq_len)` slicing) and zero-padding of the last window;
* `cosine_lr_schedule`: warmup-then-cosine-decay learning-rate schedule,
  real-valued, with `math.cos` modelled by `Real.cos`;
* the learning rate actually applied by `torch.optim.lr_scheduler.LambdaLR`
  (documented contract: initial lr times the lambda's value);
* the model-type dispatch of `main`;
* the epoch-level loss accumulators of `train`.
-/

namespace TrainPy

/-- Python `range(start, stop, step)` for a positive `step`:
the list `start, start+step, ...` of values `< stop`. -/
def rangeStep (start stop step : ℕ) : List ℕ :=
  if h : 0 < step ∧ start < stop then
    start :: rangeStep (start + step) stop step
  else
    []
termination_by stop - start
decreasing_by exact Nat.sub_lt_sub_left h.2 (Nat.lt_add_of_pos_right h.1)

/-- Python slice `xs[i : j]` for `0 ≤ i ≤ j` (clamped at the length). -/
def pySlice (xs : List ℕ) (i j : ℕ) : List ℕ :=
  (xs.drop i).take (j - i)

/-- The chunking of `__init__` (applied to both `data` and `labels`):
`[xs[i : min(i + seq_len, len(xs))] for i in range(0, len(xs), seq_len)]`. -/
def chunkTokens (L : ℕ) (xs : List ℕ) : List (List ℕ) :=
  (rangeStep 0 xs.length L).map (fun i => pySlice xs i (min (i + L) xs.length))

/-- The label stream of `__init__` line 21: `self.data[1:] + [0]`. -/
def labelsOf (xs : List ℕ) : List ℕ :=
  xs.drop 1 ++ [0]

/-- Lines 32-35 of `__init__`: index the last chunk (`ws[-1]`, an
`IndexError` on an empty list, modelled by `none`) and right-pad it with
zeros to length `L` when it is shorter. -/
def padLastChunk (L : ℕ) (ws : List (List ℕ)) : Option (List (List ℕ)) :=
  match ws.getLast? with
  | none => none
  | some last =>
      some (if last.length < L then
              ws.dropLast ++ [last ++ List.replicate (L - last.length) 0]
            else ws)

/-- `GutenbergPoetryDataset.__init__` after tokenization: from the flat
token stream, build the label stream, chunk both into windows of length
`L`, and pad the last window of each; `none` models the `IndexError`
raised when a chunk list is empty. -/
def initDataset (L : ℕ) (tokens : List ℕ) : Option (List (List ℕ) × List (List ℕ)) := do
  let dataW ← padLastChunk L (chunkTokens L tokens)
  let labelW ← padLastChunk L (chunkTokens L (labelsOf tokens))
  return (dataW, labelW)

/-- The data windows of a successfully constructed dataset. -/
def dataWindows (L : ℕ) (tokens : List ℕ) : List (List ℕ) :=
  ((initDataset L tokens).map Prod.fst).getD []

/-- The label windows of a successfully constructed dataset. -/
def labelWindows (L : ℕ) (tokens : List ℕ) : List (List ℕ) :=
  ((initDataset L tokens).map Prod.snd).getD []

/-- Python `"".join(parts)`: concatenation of the record strings in file
order (line 20 of `__init__`). -/
def pyJoinEmpty (parts : List String) : String :=
  parts.foldl (fun acc s => acc ++ s) ""

/-- The flat token sequence of the dataset (line 20): the tokenizer's
encoding — an abstract `encode : String → List ℕ` — of the join of the
per-record strings. -/
def flatTokens (encode : String → List ℕ) (records : List String) : List ℕ :=
  encode (pyJoinEmpty records)

/-- `cosine_lr_schedule(step, max_steps)` of `train.py`, lines 47-58.
`args.lr` and `args.warmup_steps` are globals of the script and become
explicit parameters here; Python floats are modelled by `ℝ` and
`math.cos` by `Real.cos`.  `max_steps - args.warmup_steps` is Python
integer subtraction, hence computed in `ℤ`. -/
noncomputable def cosine_lr_schedule (lr : ℝ) (warmup_steps : ℕ)
    (step : ℕ) (max_steps : ℕ) : ℝ :=
  let min_lr : ℝ := min (lr / 5) 1e-4
  if step < warmup_steps then
    ((step : ℝ) / ((max 1 warmup_steps : ℕ) : ℝ)) * lr
  else
    let progress : ℝ :=
      ((step : ℝ) - (warmup_steps : ℝ)) /
        (((max 1 ((max_steps : ℤ) - (warmup_steps : ℤ)) : ℤ)) : ℝ)
    min_lr + 0.5 * (lr - min_lr) * (1 + Real.cos (Real.pi * progress))

/-- The learning rate that `torch.optim.lr_scheduler.LambdaLR` makes the
optimizer apply at scheduler step `step` (lines 74-77): by `LambdaLR`'s
documented contract it is the optimizer's initial learning rate
(`args.lr`, line 74) multiplied by the value of the supplied lambda,
which here is `cosine_lr_schedule(step, max_steps)`. -/
noncomputable def appliedLearningRate (lr : ℝ) (warmup_steps : ℕ)
    (step : ℕ) (max_steps : ℕ) : ℝ :=
  lr * cosine_lr_schedule lr warmup_steps step max_steps

/-- The model-type dispatch of `main` (lines 160-171): only
`"transformer"` constructs a model and enters training; any other value
raises `ValueError`, modelled by `Except.error` with the format string of
line 169. -/
def mainDispatch (model_type : String) : Except String Unit :=
  if model_type = "transformer" then
    Except.ok ()
  else
    Except.error ("Model type " ++ model_type ++ " not supported")

/-- The per-epoch training-loss accumulator of `train` (lines 82-103):
`train_loss` starts at `0.0`, each batch adds `loss.item()`, and the
value logged under `Loss/train_epoch` is the accumulator divided by
`len(train_dataloader)`, the number of training batches. -/
noncomputable def avgTrainLossEpoch (losses : List ℝ) : ℝ :=
  (losses.foldl (fun acc l => acc + l) 0) / (losses.length : ℝ)

/-- The per-epoch validation-loss accumulator of `train` (lines 108-117):
`val_loss` starts at `0.0`, each batch adds the batch loss, and the value
logged under `Loss/validation` is the accumulator divided by
`len(val_dataloader)`, the number of validation batches. -/
noncomputable def avgValLossEpoch (losses : List ℝ) : ℝ :=
  (losses.foldl (fun acc l => acc + l) 0) / (losses.length : ℝ)

/-! ### Structural lemmas about the chunking -/

lemma rangeStep_eq_nil {start stop step : ℕ} (h : ¬(0 < step ∧ start < stop)) :
    rangeStep start stop step = [] := by
  rw [rangeStep, dif_neg h]

lemma rangeStep_eq_cons {start stop step : ℕ} (h1 : 0 < step) (h2 : start < stop) :
    rangeStep start stop step = start :: rangeStep (start + step) stop step := by
  rw [rangeStep, dif_pos ⟨h1, h2⟩]

lemma rangeStep_shift (c : ℕ) : ∀ a b s : ℕ,
    rangeStep (a + c) (b + c) s = (rangeStep a b s).map (· + c) := by
  intro a b s
  by_cases h : 0 < s ∧ a < b
  · rw [rangeStep_eq_cons h.1 h.2, rangeStep_eq_cons h.1 (by omega : a + c < b + c)]
    have ih := rangeStep_shift c (a + s) b s
    simp only [List.map_cons]
    rw [show a + c + s = a + s + c by omega, ih]
  · rw [rangeStep_eq_nil h, rangeStep_eq_nil (by omega), List.map_nil]
termination_by a b s => b - a
decreasing_by omega

lemma chunkTokens_nil (L : ℕ) : chunkTokens L [] = [] := by
  simp [chunkTokens, rangeStep_eq_nil]

/-- Peeling off the first window: for a non-empty token list the chunking
is the first `L` tokens followed by the chunking of the rest. -/
lemma chunkTokens_cons (L : ℕ) (hL : 0 < L) (xs : List ℕ) (hxs : xs ≠ []) :
    chunkTokens L xs = xs.take L :: chunkTokens L (xs.drop L) := by
  have hn : 0 < xs.length := List.length_pos.mpr hxs
  unfold chunkTokens
  rw [rangeStep_eq_cons hL hn, List.map_cons]
  congr 1
  · show pySlice xs 0 (min (0 + L) xs.length) = xs.take L
    unfold pySlice
    simp only [List.drop_zero, Nat.zero_add, Nat.sub_zero]
    rw [List.take_eq_take]
    omega
  · rw [List.length_drop]
    by_cases hcase : L < xs.length
    · have hshift : rangeStep L xs.length L
          = (rangeStep 0 (xs.length - L) L).map (· + L) := by
        have := rangeStep_shift L 0 (xs.length - L) L
        simpa [Nat.sub_add_cancel (le_of_lt hcase)] using this
      rw [Nat.zero_add, hshift, List.map_map]
      apply List.map_congr_left
      intro i _
      show pySlice xs (i + L) (min (i + L + L) xs.length)
          = pySlice (xs.drop L) i (min (i + L) (xs.length - L))
      unfold pySlice
      rw [List.drop_drop, Nat.add_comm L i]
      congr 1
      omega
    · rw [rangeStep_eq_nil (by omega), rangeStep_eq_nil (by omega)]
      simp

/-- Ceiling-division recurrence used when peeling one window off a
non-empty list. -/
lemma ceilDiv_peel {L n : ℕ} (hL : 0 < L) (hn : 0 < n) :
    (n + L - 1) / L = 1 + (n - L + L - 1) / L := by
  rcases le_or_lt n L with hc | hc
  · have h1 : n + L - 1 = (n - 1) + L := by omega
    have h2 : n - L + L - 1 = L - 1 := by omega
    rw [h1, h2, Nat.add_div_right _ hL, Nat.div_eq_of_lt (by omega),
      Nat.div_eq_of_lt (by omega)]
  · have h1 : n + L - 1 = ((n - L - 1) + L) + L := by omega
    have h2 : n - L + L - 1 = (n - L - 1) + L := by omega
    rw [h1, h2, Nat.add_div_right _ hL, Nat.add_div_right _ hL]
    omega

/-- The chunking of an `n`-token list into windows of length `L ≥ 1`
produces `⌈n / L⌉ = (n + L - 1) / L` windows. -/
lemma chunkTokens_length (L : ℕ) (hL : 0 < L) (xs : List ℕ) :
    (chunkTokens L xs).length = (xs.length + L - 1) / L := by
  by_cases hxs : xs = []
  · subst hxs
    simp [chunkTokens_nil, Nat.div_eq_of_lt (by omega : L - 1 < L)]
  · have hn : 0 < xs.length := List.length_pos.mpr hxs
    rw [chunkTokens_cons L hL xs hxs, List.length_cons]
    have ih := chunkTokens_length L hL (xs.drop L)
    rw [ih, List.length_drop, ceilDiv_peel hL hn]
    omega
termination_by xs.length
decreasing_by simp only [List.length_drop]; omega

/-- Window `i` of the chunking is the slice of `L` tokens starting at
flat position `i * L` (clamped at the end of the list). -/
lemma chunkTokens_getD (L : ℕ) (hL : 0 < L) (xs : List ℕ) :
    ∀ i < (chunkTokens L xs).length,
      (chunkTokens L xs).getD i [] = (xs.drop (i * L)).take L := by
  by_cases hxs : xs = []
  · subst hxs
    simp [chunkTokens_nil]
  · intro i hi
    have hn : 0 < xs.length := List.length_pos.mpr hxs
    rw [chunkTokens_cons L hL xs hxs] at hi ⊢
    match i with
    | 0 => simp
    | (j + 1) =>
      simp only [List.getD_cons_succ]
      have ih := chunkTokens_getD L hL (xs.drop L) j
        (by simpa using Nat.lt_of_succ_lt_succ hi)
      rw [ih, List.drop_drop]
      congr 2
      ring
termination_by xs.length
decreasing_by simp only [List.length_drop]; omega

lemma chunkTokens_ne_nil (L : ℕ) (hL : 0 < L) (xs : List ℕ) (hxs : xs ≠ []) :
    chunkTokens L xs ≠ [] := by
  rw [chunkTokens_cons L hL xs hxs]
  exact List.cons_ne_nil _ _

/-- For a non-empty chunk list, the `ws[-1]` indexing succeeds; whether or
not the last chunk is short, the result is the list with its last chunk
right-padded by zeros up to length `L`. -/
lemma padLastChunk_some (L : ℕ) (ws : List (List ℕ)) (h : ws ≠ []) :
    padLastChunk L ws
      = some (ws.dropLast
          ++ [ws.getLast h ++ List.replicate (L - (ws.getLast h).length) 0]) := by
  unfold padLastChunk
  rw [List.getLast?_eq_getLast ws h]
  dsimp only
  by_cases hlen : (ws.getLast h).length < L
  · rw [if_pos hlen]
  · rw [if_neg hlen]
    have hz : L - (ws.getLast h).length = 0 := by omega
    rw [hz, List.replicate_zero, List.append_nil, List.dropLast_append_getLast]

lemma labelsOf_ne_nil (xs : List ℕ) : labelsOf xs ≠ [] := by
  simp [labelsOf]

lemma labelsOf_length (xs : List ℕ) (hxs : xs ≠ []) :
    (labelsOf xs).length = xs.length := by
  have : 0 < xs.length := List.length_pos.mpr hxs
  simp only [labelsOf, List.length_append, List.length_drop, List.length_singleton]
  omega

/-- Reading a clamped slice through `getD`: position `j < L` of
`xs[m : m + L]` is token `m + j` when in range and the default otherwise. -/
lemma getD_take_drop (xs : List ℕ) (m L j : ℕ) (hj : j < L) :
    ((xs.drop m).take L).getD j 0
      = if m + j < xs.length then xs.getD (m + j) 0 else 0 := by
  rw [List.getD_eq_getElem?_getD, List.getElem?_take_of_lt hj, List.getElem?_drop]
  by_cases h : m + j < xs.length
  · rw [if_pos h, List.getD_eq_getElem?_getD]
  · rw [if_neg h, List.getElem?_eq_none (by omega)]
    rfl

/-- Right-padding with zeros does not change any `getD`-read with
default `0`. -/
lemma getD_append_zeros (w : List ℕ) (k j : ℕ) :
    (w ++ List.replicate k 0).getD j 0 = w.getD j 0 := by
  by_cases h : j < w.length
  · rw [List.getD_append _ _ _ _ h]
  · have hw : w.getD j 0 = 0 := by
      rw [List.getD_eq_getElem?_getD, List.getElem?_eq_none (by omega)]
      rfl
    rw [List.getD_append_right _ _ _ _ (by omega), hw, List.getD_eq_getElem?_getD]
    rcases lt_or_ge (j - w.length) k with hk | hk
    · simp [List.getElem?_replicate, hk]
    · rw [List.getElem?_eq_none (by simpa using hk)]
      rfl

/-- Full characterization of one padded chunking (used for both the data
and the label windows): the number of windows is `⌈n / L⌉`, every window
has length exactly `L`, reading position `j` of window `i` reads flat
position `i * L + j` (or the zero padding when past the end), and every
window except the final one is the exact unpadded slice, wholly inside
the token list. -/
lemma paddedChunk_spec (L : ℕ) (hL : 0 < L) (xs : List ℕ) (hxs : xs ≠ []) :
    ∃ W, padLastChunk L (chunkTokens L xs) = some W ∧
      W.length = (xs.length + L - 1) / L ∧
      (∀ i < W.length, (W.getD i []).length = L) ∧
      (∀ i < W.length, ∀ j < L,
        (W.getD i []).getD j 0
          = if i * L + j < xs.length then xs.getD (i * L + j) 0 else 0) ∧
      (∀ i, i + 1 < W.length →
        W.getD i [] = (xs.drop (i * L)).take L ∧ (i + 1) * L ≤ xs.length) := by
  have hn : 0 < xs.length := List.length_pos.mpr hxs
  set n := xs.length with hn_def
  set cs := chunkTokens L xs with hcs_def
  have hcs : cs ≠ [] := chunkTokens_ne_nil L hL xs hxs
  have hcslen : 0 < cs.length := List.length_pos.mpr hcs
  have hlen : cs.length = (n + L - 1) / L := chunkTokens_length L hL xs
  have hget : ∀ i < cs.length, cs.getD i [] = (xs.drop (i * L)).take L :=
    chunkTokens_getD L hL xs
  have hceil : (n + L - 1) / L = (n - 1) / L + 1 := by
    rw [show n + L - 1 = (n - 1) + L by omega, Nat.add_div_right _ hL]
  have hfull : ∀ i, i + 1 < cs.length → (i + 1) * L ≤ n := by
    intro i hi
    rw [hlen, hceil] at hi
    have h1 : i + 1 ≤ (n - 1) / L := by omega
    have h2 : (i + 1) * L ≤ ((n - 1) / L) * L := Nat.mul_le_mul_right L h1
    have h3 : ((n - 1) / L) * L ≤ n - 1 := Nat.div_mul_le_self _ _
    omega
  have hlast_eq : cs.getLast hcs = cs.getD (cs.length - 1) [] := by
    rw [List.getLast_eq_getElem]
    exact (List.getD_eq_getElem _ _ (by omega)).symm
  refine ⟨_, padLastChunk_some L cs hcs, ?_⟩
  set last := cs.getLast hcs with hlast_def
  set W := cs.dropLast ++ [last ++ List.replicate (L - last.length) 0] with hW_def
  have hWlen : W.length = cs.length := by
    rw [hW_def, List.length_append, List.length_dropLast, List.length_singleton]
    omega
  have hWget_front : ∀ i, i + 1 < cs.length → W.getD i [] = cs.getD i [] := by
    intro i hi
    have h1 : i < cs.dropLast.length := by
      rw [List.length_dropLast]
      omega
    rw [hW_def, List.getD_append _ _ _ _ h1, List.getD_eq_getElem _ _ h1,
      List.getElem_dropLast]
    exact (List.getD_eq_getElem _ _ (by omega : i < cs.length)).symm
  have hWget_last : W.getD (cs.length - 1) []
      = last ++ List.replicate (L - last.length) 0 := by
    rw [hW_def, List.getD_append_right _ _ _ _ (by rw [List.length_dropLast])]
    rw [List.length_dropLast, Nat.sub_self]
    rfl
  have hlast_chunk : last = (xs.drop ((cs.length - 1) * L)).take L := by
    rw [hlast_eq]
    exact hget _ (by omega)
  have hlast_le : last.length ≤ L := by
    rw [hlast_chunk, List.length_take]
    omega
  have hWget : ∀ i < W.length, ∀ j < L,
      (W.getD i []).getD j 0
        = if i * L + j < n then xs.getD (i * L + j) 0 else 0 := by
    intro i hi j hj
    rcases lt_or_ge (i + 1) cs.length with hfr | hla
    · rw [hWget_front i hfr, hget i (by omega), getD_take_drop xs _ L j hj]
    · have hieq : i = cs.length - 1 := by
        rw [hWlen] at hi
        omega
      rw [hieq, hWget_last, getD_append_zeros, hlast_chunk,
        getD_take_drop xs _ L j hj]
  have hWlenwin : ∀ i < W.length, (W.getD i []).length = L := by
    intro i hi
    rcases lt_or_ge (i + 1) cs.length with hfr | hla
    · rw [hWget_front i hfr, hget i (by omega), List.length_take, List.length_drop]
      have h := hfull i hfr
      have h2 : i * L + L ≤ n := by
        have hmul : (i + 1) * L = i * L + L := by ring
        omega
      omega
    · have hieq : i = cs.length - 1 := by
        rw [hWlen] at hi
        omega
      rw [hieq, hWget_last, List.length_append, List.length_replicate]
      omega
  refine ⟨by rw [hWlen, hlen], hWlenwin, hWget, ?_⟩
  intro i hi
  rw [hWlen] at hi
  exact ⟨by rw [hWget_front i hi]; exact hget i (by omega), hfull i hi⟩

lemma initDataset_eq_some {L : ℕ} {tokens : List ℕ} {d l : List (List ℕ)}
    (hd : padLastChunk L (chunkTokens L tokens) = some d)
    (hl : padLastChunk L (chunkTokens L (labelsOf tokens)) = some l) :
    initDataset L tokens = some (d, l) := by
  simp [initDataset, hd, hl]

lemma dataWindows_eq {L : ℕ} {tokens : List ℕ} {d l : List (List ℕ)}
    (h : initDataset L tokens = some (d, l)) : dataWindows L tokens = d := by
  simp [dataWindows, h]

lemma labelWindows_eq {L : ℕ} {tokens : List ℕ} {d l : List (List ℕ)}
    (h : initDataset L tokens = some (d, l)) : labelWindows L tokens = l := by
  simp [labelWindows, h]

/-- Reading the label stream `data[1:] + [0]` at a flat position: the
next token when one exists, `0` at the final position and beyond. -/
lemma labelsOf_getD (tokens : List ℕ) (ht : tokens ≠ []) (p : ℕ) :
    (labelsOf tokens).getD p 0
      = if p + 1 < tokens.length then tokens.getD (p + 1) 0 else 0 := by
  have hn : 0 < tokens.length := List.length_pos.mpr ht
  unfold labelsOf
  rcases lt_or_ge p (tokens.length - 1) with hp | hp
  · rw [List.getD_append _ _ _ _ (by rw [List.length_drop]; omega), if_pos (by omega),
      List.getD_eq_getElem?_getD, List.getD_eq_getElem?_getD, List.getElem?_drop,
      Nat.add_comm 1 p]
  · rw [List.getD_append_right _ _ _ _ (by rw [List.length_drop]; omega),
      if_neg (by omega), List.length_drop]
    rcases eq_or_lt_of_le hp with hp1 | hp1
    · rw [← hp1, Nat.sub_self]
      rfl
    · rw [List.getD_eq_getElem?_getD,
        List.getElem?_eq_none (by simp only [List.length_singleton]; omega)]
      rfl

/-- The warmup branch never fires at `step = warmup_steps`, `progress`
is `0` there, and the cosine term collapses to `2`, so the decay phase
opens exactly at the peak learning rate. -/
lemma cosine_lr_schedule_at_warmup (lr : ℝ) (w M : ℕ) :
    cosine_lr_schedule lr w w M = lr := by
  unfold cosine_lr_schedule
  rw [if_neg (lt_irrefl w)]
  simp only [sub_self, zero_div, mul_zero, Real.cos_zero]
  ring

/-- At `step = max_steps > warmup_steps` the `progress` fraction is `1`,
the cosine term collapses to `0`, and the schedule returns the minimum
learning rate. -/
lemma cosine_lr_schedule_at_max (lr : ℝ) (w M : ℕ) (hM : w < M) :
    cosine_lr_schedule lr w M M = min (lr / 5) 1e-4 := by
  unfold cosine_lr_schedule
  rw [if_neg (by omega)]
  have hmax : max 1 ((M : ℤ) - (w : ℤ)) = (M : ℤ) - (w : ℤ) := by
    rw [max_eq_right]
    omega
  have hprog : ((M : ℝ) - (w : ℝ)) / ((max 1 ((M : ℤ) - (w : ℤ)) : ℤ) : ℝ) = 1 := by
    rw [hmax]
    push_cast
    rw [div_self]
    have : (w : ℝ) < (M : ℝ) := by exact_mod_cast hM
    intro hzero
    linarith
  simp only [hprog, mul_one, Real.cos_pi]
  ring

/-! ### Claim theorems -/

/-- Claim C4: for every step `0 ≤ step < warmup_steps`,
`cosine_lr_schedule(step, max_steps)` equals
`(step / max(1, warmup_steps)) * lr`; in particular the warmup phase
starts at `0` at step `0` and rises linearly toward the peak rate. -/
theorem schedule_warmup_linear (lr : ℝ) (w step M : ℕ) (h : step < w) :
    cosine_lr_schedule lr w step M = ((step : ℝ) / ((max 1 w : ℕ) : ℝ)) * lr ∧
    cosine_lr_schedule lr w 0 M = 0 := by
  constructor
  · unfold cosine_lr_schedule
    rw [if_pos h]
  · unfold cosine_lr_schedule
    rw [if_pos (by omega)]
    simp

/-- Witness for C4 at `lr = 0.002`, `warmup_steps = 10`, `step = 3`,
`max_steps = 20`. -/
theorem schedule_warmup_linear_witness :
    3 < 10 ∧
    (cosine_lr_schedule 0.002 10 3 20 = ((3 : ℝ) / ((max 1 10 : ℕ) : ℝ)) * 0.002 ∧
      cosine_lr_schedule 0.002 10 0 20 = 0) :=
  ⟨by decide, schedule_warmup_linear 0.002 10 3 20 (by decide)⟩

/-- Claim C5: with `warmup_steps ≥ 1` and `max_steps > warmup_steps`, the
schedule equals the peak rate `lr` exactly at the warmup boundary (so it
is continuous there) and equals the minimum rate `min(lr/5, 1e-4)` at
`step = max_steps`. -/
theorem schedule_boundary_values (lr : ℝ) (w M : ℕ) (hw : 1 ≤ w) (hM : w < M) :
    cosine_lr_schedule lr w w M = lr ∧
    cosine_lr_schedule lr w M M = min (lr / 5) 1e-4 :=
  ⟨cosine_lr_schedule_at_warmup lr w M, cosine_lr_schedule_at_max lr w M hM⟩

/-- Witness for C5 at `lr = 0.002`, `warmup_steps = 10`, `max_steps = 20`. -/
theorem schedule_boundary_values_witness :
    (1 ≤ 10 ∧ 10 < 20) ∧
    (cosine_lr_schedule 0.002 10 10 20 = 0.002 ∧
      cosine_lr_schedule 0.002 10 20 20 = min (0.002 / 5) 1e-4) :=
  ⟨⟨by decide, by decide⟩, schedule_boundary_values 0.002 10 20 (by decide) (by decide)⟩

/-- Claim C6: on the cosine decay phase
`warmup_steps ≤ s1 ≤ s2 ≤ max_steps`, assuming the peak rate is at least
the minimum rate, the schedule is monotonically non-increasing. -/
theorem schedule_decay_antitone (lr : ℝ) (w s1 s2 M : ℕ)
    (h1 : w ≤ s1) (h2 : s1 ≤ s2) (h3 : s2 ≤ M)
    (hlr : min (lr / 5) 1e-4 ≤ lr) :
    cosine_lr_schedule lr w s2 M ≤ cosine_lr_schedule lr w s1 M := by
  unfold cosine_lr_schedule
  rw [if_neg (by omega), if_neg (by omega)]
  set D : ℝ := ((max 1 ((M : ℤ) - (w : ℤ)) : ℤ) : ℝ) with hD_def
  have hD1 : (1 : ℝ) ≤ D := by
    rw [hD_def]
    exact_mod_cast le_max_left 1 ((M : ℤ) - (w : ℤ))
  have hD0 : (0 : ℝ) < D := by linarith
  have hDM : ((M : ℝ) - (w : ℝ)) ≤ D := by
    rw [hD_def]
    have := le_max_right (1 : ℤ) ((M : ℤ) - (w : ℤ))
    exact_mod_cast (by push_cast; exact_mod_cast this :
      ((M : ℤ) : ℝ) - ((w : ℤ) : ℝ) ≤ ((max 1 ((M : ℤ) - (w : ℤ)) : ℤ) : ℝ))
  have hs1 : (w : ℝ) ≤ (s1 : ℝ) := by exact_mod_cast h1
  have hs12 : (s1 : ℝ) ≤ (s2 : ℝ) := by exact_mod_cast h2
  have hs2M : (s2 : ℝ) ≤ (M : ℝ) := by exact_mod_cast h3
  have hp1_nonneg : 0 ≤ ((s1 : ℝ) - (w : ℝ)) / D := by
    apply div_nonneg (by linarith) (le_of_lt hD0)
  have hp12 : ((s1 : ℝ) - (w : ℝ)) / D ≤ ((s2 : ℝ) - (w : ℝ)) / D := by
    exact (div_le_div_iff_of_pos_right hD0).mpr (by linarith)
  have hp2_le_one : ((s2 : ℝ) - (w : ℝ)) / D ≤ 1 := by
    rw [div_le_one hD0]
    linarith
  have hpi := Real.pi_pos
  have hcos : Real.cos (Real.pi * (((s2 : ℝ) - (w : ℝ)) / D))
      ≤ Real.cos (Real.pi * (((s1 : ℝ) - (w : ℝ)) / D)) := by
    apply Real.cos_le_cos_of_nonneg_of_le_pi
    · exact mul_nonneg (le_of_lt hpi) hp1_nonneg
    · calc Real.pi * (((s2 : ℝ) - (w : ℝ)) / D)
          ≤ Real.pi * 1 := by
            apply mul_le_mul_of_nonneg_left hp2_le_one (le_of_lt hpi)
        _ = Real.pi := mul_one _
    · exact mul_le_mul_of_nonneg_left hp12 (le_of_lt hpi)
  have hcoef : (0 : ℝ) ≤ 0.5 * (lr - min (lr / 5) 1e-4) := by linarith
  have hfac : (1 : ℝ) + Real.cos (Real.pi * (((s2 : ℝ) - (w : ℝ)) / D))
      ≤ 1 + Real.cos (Real.pi * (((s1 : ℝ) - (w : ℝ)) / D)) := by linarith
  have := mul_le_mul_of_nonneg_left hfac hcoef
  simp only []
  linarith

/-- Witness for C6 at `lr = 0.002`, `warmup_steps = 10`, `s1 = 12`,
`s2 = 18`, `max_steps = 20`. -/
theorem schedule_decay_antitone_witness :
    (10 ≤ 12 ∧ 12 ≤ 18 ∧ 18 ≤ 20 ∧ min ((0.002 : ℝ) / 5) 1e-4 ≤ 0.002) ∧
    cosine_lr_schedule 0.002 10 18 20 ≤ cosine_lr_schedule 0.002 10 12 20 :=
  ⟨⟨by decide, by decide, by decide, by norm_num⟩,
    schedule_decay_antitone 0.002 10 12 18 20 (by decide) (by decide) (by decide)
      (by norm_num)⟩

/-- Claim C1 (refuted by the code): `train` passes `cosine_lr_schedule`
— a function already returning an absolute learning rate — as the
`lr_lambda` of `LambdaLR`, whose contract multiplies the optimizer's
base learning rate by the lambda.  At the default `lr = 0.002`,
`warmup_steps = 10` and `max_steps = 20`, the schedule value at the
warmup boundary is `0.002`, but the learning rate the optimizer applies
is `0.002 * 0.002 = 4e-6`, not the schedule value. -/
theorem applied_lr_is_not_schedule :
    cosine_lr_schedule 0.002 10 10 20 = 0.002 ∧
    appliedLearningRate 0.002 10 10 20 = 0.002 * 0.002 ∧
    appliedLearningRate 0.002 10 10 20 ≠ cosine_lr_schedule 0.002 10 10 20 := by
  have hs : cosine_lr_schedule 0.002 10 10 20 = 0.002 :=
    cosine_lr_schedule_at_warmup 0.002 10 20
  refine ⟨hs, ?_, ?_⟩
  · unfold appliedLearningRate
    rw [hs]
  · unfold appliedLearningRate
    rw [hs]
    norm_num

/-- Claim C7: `main` raises its `ValueError` exactly when the model type
is not `"transformer"`; with `"transformer"` the model is constructed
and training is entered. -/
theorem main_fatal_iff_not_transformer (model_type : String) :
    (mainDispatch model_type = Except.ok () ↔ model_type = "transformer") ∧
    (mainDispatch model_type
        = Except.error ("Model type " ++ model_type ++ " not supported")
      ↔ model_type ≠ "transformer") := by
  by_cases h : model_type = "transformer" <;> simp [mainDispatch, h]

/-- Claim C8: the value logged under `Loss/train_epoch` is the sum of the
per-batch training losses divided by the number of training batches —
their arithmetic mean — and the value logged under `Loss/validation` is
the sum of the per-batch validation losses divided by the number of
validation batches. -/
theorem epoch_losses_are_means (train_batch_losses val_batch_losses : List ℝ) :
    avgTrainLossEpoch train_batch_losses
      = train_batch_losses.sum / (train_batch_losses.length : ℝ) ∧
    avgValLossEpoch val_batch_losses
      = val_batch_losses.sum / (val_batch_losses.length : ℝ) := by
  constructor
  · unfold avgTrainLossEpoch
    rw [List.sum_eq_foldl]
  · unfold avgValLossEpoch
    rw [List.sum_eq_foldl]

/-- Claim C2: for a tokenized corpus of `n ≥ 1` tokens and `seq_len = L ≥ 1`,
the dataset has `⌈n / L⌉` windows, each of length exactly `L`; position
`j` of window `i` holds the token at flat position `i * L + j` when that
is in range and the zero padding otherwise, and every window but the
final one is the exact consecutive, non-overlapping, unpadded slice
lying wholly inside the corpus. -/
theorem dataset_windows_spec (L : ℕ) (tokens : List ℕ)
    (hL : 1 ≤ L) (ht : 1 ≤ tokens.length) :
    (dataWindows L tokens).length = (tokens.length + L - 1) / L ∧
    (∀ i < (dataWindows L tokens).length,
      ((dataWindows L tokens).getD i []).length = L) ∧
    (∀ i < (dataWindows L tokens).length, ∀ j < L,
      ((dataWindows L tokens).getD i []).getD j 0
        = if i * L + j < tokens.length then tokens.getD (i * L + j) 0 else 0) ∧
    (∀ i, i + 1 < (dataWindows L tokens).length →
      (dataWindows L tokens).getD i [] = (tokens.drop (i * L)).take L ∧
        (i + 1) * L ≤ tokens.length) := by
  have ht' : tokens ≠ [] := List.length_pos.mp (by omega)
  obtain ⟨d, hd, hdlen, hdwin, hdget, hdfront⟩ := paddedChunk_spec L hL tokens ht'
  obtain ⟨l, hl, _⟩ :=
    paddedChunk_spec L hL (labelsOf tokens) (labelsOf_ne_nil tokens)
  rw [dataWindows_eq (initDataset_eq_some hd hl)]
  exact ⟨hdlen, hdwin, hdget, hdfront⟩

/-- Witness for C2 at `L = 2`, `tokens = [5, 6, 7]`: three tokens make
`⌈3 / 2⌉ = 2` windows. -/
theorem dataset_windows_spec_witness :
    (1 ≤ 2 ∧ 1 ≤ ([5, 6, 7] : List ℕ).length) ∧
    (dataWindows 2 [5, 6, 7]).length = 2 := by
  have h := dataset_windows_spec 2 [5, 6, 7] (by decide) (by decide)
  refine ⟨⟨by decide, by decide⟩, ?_⟩
  rw [h.1]
  decide

/-- Claim C9: the label stream is the token stream shifted left by one
with a zero appended — the label at each flat position except the last
is the next token, the label at the final position is `0` — and
consequently each label window holds the next-token targets of the
corresponding input window (with `0` past the end of the corpus). -/
theorem labels_are_shifted_tokens (L : ℕ) (tokens : List ℕ)
    (hL : 1 ≤ L) (ht : 1 ≤ tokens.length) :
    (∀ p, p + 1 < tokens.length →
      (labelsOf tokens).getD p 0 = tokens.getD (p + 1) 0) ∧
    (labelsOf tokens).getD (tokens.length - 1) 0 = 0 ∧
    (∀ i < (labelWindows L tokens).length, ∀ j < L,
      ((labelWindows L tokens).getD i []).getD j 0
        = if i * L + j + 1 < tokens.length
          then tokens.getD (i * L + j + 1) 0 else 0) := by
  have ht' : tokens ≠ [] := List.length_pos.mp (by omega)
  refine ⟨?_, ?_, ?_⟩
  · intro p hp
    rw [labelsOf_getD tokens ht' p, if_pos hp]
  · rw [labelsOf_getD tokens ht' _, if_neg (by omega)]
  · obtain ⟨d, hd, _⟩ := paddedChunk_spec L hL tokens ht'
    obtain ⟨l, hl, hllen, hlwin, hlget, _⟩ :=
      paddedChunk_spec L hL (labelsOf tokens) (labelsOf_ne_nil tokens)
    rw [labelWindows_eq (initDataset_eq_some hd hl)]
    intro i hi j hj
    have hgoal := hlget i hi j hj
    rw [labelsOf_length tokens ht'] at hgoal
    rw [hgoal, labelsOf_getD tokens ht' (i * L + j)]
    by_cases h1 : i * L + j + 1 < tokens.length
    · rw [if_pos (by omega : i * L + j < tokens.length), if_pos h1]
    · rw [if_neg h1]
      by_cases h2 : i * L + j < tokens.length
      · rw [if_pos h2]
      · rw [if_neg h2]

/-- Witness for C9 at `L = 2`, `tokens = [5, 6, 7]`, flat position `0`:
the label there is the token at position `1`. -/
theorem labels_are_shifted_tokens_witness :
    (1 ≤ 2 ∧ 1 ≤ ([5, 6, 7] : List ℕ).length ∧ 0 + 1 < ([5, 6, 7] : List ℕ).length) ∧
    (labelsOf [5, 6, 7]).getD 0 0 = ([5, 6, 7] : List ℕ).getD (0 + 1) 0 := by
  have h := labels_are_shifted_tokens 2 [5, 6, 7] (by decide) (by decide)
  exact ⟨⟨by decide, by decide, by decide⟩, h.1 0 (by decide)⟩

/-- Claim C10: with `seq_len ≥ 1`, the constructor's unconditional
`data[-1]`/`labels[-1]` accesses fail (out-of-range index) exactly on an
empty tokenization; on a non-empty tokenization the constructor
succeeds and produces equally many data and label windows. -/
theorem initDataset_fails_iff_empty (L : ℕ) (tokens : List ℕ) (hL : 1 ≤ L) :
    (tokens = [] → initDataset L tokens = none) ∧
    (tokens ≠ [] →
      ∃ d l, initDataset L tokens = some (d, l) ∧ d.length = l.length) := by
  constructor
  · intro h
    subst h
    simp [initDataset, chunkTokens_nil, padLastChunk]
  · intro ht'
    obtain ⟨d, hd, hdlen, _⟩ := paddedChunk_spec L hL tokens ht'
    obtain ⟨l, hl, hllen, _⟩ :=
      paddedChunk_spec L hL (labelsOf tokens) (labelsOf_ne_nil tokens)
    refine ⟨d, l, initDataset_eq_some hd hl, ?_⟩
    rw [hdlen, hllen, labelsOf_length tokens ht']

/-- Witness for C10 at `L = 2`: the empty tokenization makes the
constructor fail, and `[5, 6, 7]` makes it succeed with equally many
data and label windows. -/
theorem initDataset_fails_iff_empty_witness :
    (1 ≤ 2) ∧ initDataset 2 ([] : List ℕ) = none ∧
    (∃ d l, initDataset 2 [5, 6, 7] = some (d, l) ∧ d.length = l.length) := by
  have h1 := initDataset_fails_iff_empty 2 ([] : List ℕ) (by decide)
  have h2 := initDataset_fails_iff_empty 2 [5, 6, 7] (by decide)
  exact ⟨by decide, h1.1 rfl, h2.2 (by decide)⟩

/-- Left-folding string concatenation from any accumulator produces the
accumulator followed by the in-order concatenation of the list. -/
lemma pyJoinEmpty_foldl (records : List String) : ∀ acc : String,
    records.foldl (fun a s => a ++ s) acc
      = acc ++ records.foldr (fun s a => s ++ a) "" := by
  induction records with
  | nil =>
      intro acc
      simp [String.append_empty]
  | cons r rs ih =>
      intro acc
      simp only [List.foldl_cons, List.foldr_cons]
      rw [ih (acc ++ r), String.append_assoc]

/-- Claim C3: the dataset's flat token sequence is the tokenizer's
encoding of the concatenation, in file order, of the per-record strings
— each record contributes exactly its string, and concatenation happens
before tokenization. -/
theorem flat_tokens_encode_concat (encode : String → List ℕ)
    (records : List String) :
    flatTokens encode records
      = encode (records.foldr (fun s acc => s ++ acc) "") := by
  unfold flatTokens pyJoinEmpty
  rw [pyJoinEmpty_foldl records "", String.empty_append]

end TrainPy
